import Mathlib

/-!
Verification development for an EPUB translation pipeline.

Python strings are modelled as `List Char` (`Str`); Python `dict`s holding
checkpoint lines are modelled as association lists with overwrite-on-insert
semantics; the Selenium-driven translation session is modelled as an oracle
giving the raw string each chunk request returns.  Functions that scan a
string and skip a matched pattern (`str.split`, `re.sub`) are written with an
explicit fuel argument equal to the input length, so that every definition is
structurally recursive and computable by the kernel; the fuel-0 branches are
unreachable for the fuel the wrappers pass.
-/

/-- Python `str` modelled as a list of characters. -/
abbrev Str := List Char

/-- Coerce a Lean string literal to the `List Char` model. -/
def strL (s : String) : Str := s.toList

/-- Python whitespace test (ASCII subset of `str.strip` / `\s`). -/
def isWS (c : Char) : Bool :=
  c == ' ' || c == '\t' || c == '\n' || c == '\r' || c == '\x0b' || c == '\x0c'

/-- Python `str.strip()`: drop leading and trailing whitespace. -/
def pyStrip (s : Str) : Str :=
  ((s.dropWhile isWS).reverse.dropWhile isWS).reverse

/-- Does `p` occur at the start of `s`?  (Python `str.startswith`.) -/
def isPrefOf : Str → Str → Bool
  | [], _ => true
  | _ :: _, [] => false
  | a :: as, b :: bs => a == b && isPrefOf as bs

/-- Does `p` occur anywhere inside `s`?  (Python `in` on strings.) -/
def hasSub (p : Str) : Str → Bool
  | [] => p.isEmpty
  | c :: rest => isPrefOf p (c :: rest) || hasSub p rest

/-- Python `str.lower()` (ASCII). -/
def toLowerS (s : Str) : Str := s.map Char.toLower

/-- Worker for `pySplit`: scan `s`, cutting at each non-overlapping
occurrence of `d` (leftmost-first, as Python `str.split(d)`).  `fuel` is the
number of characters still allowed to be consumed; the wrapper passes
`s.length`, which makes the fuel-0 branch unreachable. -/
def splitGo (d acc : Str) : Nat → Str → List Str
  | _, [] => [acc.reverse]
  | 0, s => [acc.reverse ++ s]
  | fuel + 1, c :: rest =>
    if isPrefOf d (c :: rest) && !d.isEmpty then
      acc.reverse :: splitGo d [] fuel (List.drop d.length (c :: rest))
    else
      splitGo d (c :: acc) fuel rest

/-- Python `s.split(d)` for a non-empty separator `d`. -/
def pySplit (d s : Str) : List Str := splitGo d [] s.length s

/-- Worker for `pyReplace`; same fuel discipline as `splitGo`. -/
def replGo (pat rep : Str) : Nat → Str → Str
  | _, [] => []
  | 0, s => s
  | fuel + 1, c :: rest =>
    if isPrefOf pat (c :: rest) && !pat.isEmpty then
      rep ++ replGo pat rep fuel (List.drop pat.length (c :: rest))
    else
      c :: replGo pat rep fuel rest

/-- Replace every (non-overlapping, leftmost-first) occurrence of `pat` by
`rep`; models `re.sub` with a literal pattern. -/
def pyReplace (pat rep s : Str) : Str := replGo pat rep s.length s

/-- Python `d.join(parts)`. -/
def joinD (d : Str) : List Str → Str
  | [] => []
  | [p] => p
  | p :: ps => p ++ d ++ joinD d ps

/-- `TEXT_DELIMITER` from `epub_handler.py` line 24. -/
def TEXT_DELIMITER : Str := strL "|||---|||"

/-- One iteration of the loop body of `intelligent_chunk_text`
(`epub_handler.py` lines 135-142).  State is
(`chunks`, `current_chunk_list`, `current_len`). -/
def chunkStep (max_chars : Nat) (st : List Str × List Str × Nat) (text : Str) :
    List Str × List Str × Nat :=
  if max_chars < st.2.2 + text.length + TEXT_DELIMITER.length ∧ st.2.1 ≠ [] then
    (st.1 ++ [joinD TEXT_DELIMITER st.2.1], [text], text.length)
  else
    (st.1, st.2.1 ++ [text], st.2.2 + text.length + TEXT_DELIMITER.length)

/-- `EPUBTranslator.intelligent_chunk_text` (`epub_handler.py` lines 124-147):
greedily group segments into delimiter-joined chunks. -/
def intelligent_chunk_text (text_list : List Str) (max_chars : Nat) : List Str :=
  if text_list = [] then []
  else
    let st := text_list.foldl (chunkStep max_chars) ([], [], 0)
    if st.2.1 ≠ [] then st.1 ++ [joinD TEXT_DELIMITER st.2.1] else st.1

/-- The reservation property of the delimiter with respect to a segment `p`:
no occurrence of the delimiter starts at any position of `p`, even one that
would be completed by the delimiter that the chunker appends right after `p`.
This formalises the spec's requirement that the delimiter "must not occur
naturally in input text". -/
@[reducible] def delimOK (p : Str) : Prop :=
  ∀ i, i < p.length → isPrefOf TEXT_DELIMITER (List.drop i p ++ TEXT_DELIMITER) = false

/-- Decimal digit characters. -/
def digitOf (k : Nat) : Char :=
  (['0', '1', '2', '3', '4', '5', '6', '7', '8', '9'].getD k '0')

/-- Worker for `natStr`; fuel bounds the recursion depth (`n` itself is
always enough, since `n / 10 < n` for `n ≥ 10`). -/
def natStrGo : Nat → Nat → Str
  | 0, n => [digitOf n]
  | fuel + 1, n =>
    if n < 10 then [digitOf n]
    else natStrGo fuel (n / 10) ++ [digitOf (n % 10)]

/-- Decimal rendering of a natural number, as Python f-string formatting. -/
def natStr (n : Nat) : Str := natStrGo n n

/-- Parse a decimal digit string back to a number (left inverse of `natStr`). -/
def parseNat (s : Str) : Nat := s.foldl (fun a c => a * 10 + (c.toNat - 48)) 0

/-- The checkpoint line key written by `translate_epub` line 230:
`f"chunk{j}_line{idx}"` for chunk-loop variable `j` and original segment
index `idx`. -/
def chunkKey (j idx : Nat) : Str :=
  (strL "chunk" ++ natStr j ++ strL "_line") ++ natStr idx

/-- The constant line key used by the diff step (line 198) and the
reconstruction step (line 239): `f"chunk0_line{idx}"`. -/
def lineKey0 (idx : Nat) : Str := strL "chunk0_line" ++ natStr idx

/-- One persisted checkpoint line: `{'text': ..., 'is_dialogue': ...}`
(`epub_handler.py` line 229). -/
structure LineData where
  text : Str
  is_dialogue : Bool
deriving DecidableEq

/-- The per-item checkpoint record: the `lines` dict plus the `completed`
flag (`CheckpointManager`). -/
structure ItemRec where
  lines : List (Str × LineData)
  completed : Bool
deriving DecidableEq

/-- Dict lookup on the `lines` map. -/
def lookupLine (lines : List (Str × LineData)) (k : Str) : Option LineData :=
  (lines.find? (fun p => decide (p.1 = k))).map (fun p => p.2)

/-- Dict store `lines[k] = v`: overwrite in place if the key exists,
else append (Python dict insertion-order semantics). -/
def insertLine (lines : List (Str × LineData)) (k : Str) (v : LineData) :
    List (Str × LineData) :=
  if lines.any (fun p => decide (p.1 = k)) then
    lines.map (fun p => if p.1 = k then (k, v) else p)
  else
    lines ++ [(k, v)]

/-- Dialogue heuristic of `translate_epub` line 228:
`re.match(r'^\s*["“‘]', translated_text.strip())`. -/
def isDia (t : Str) : Bool :=
  match pyStrip t with
  | [] => false
  | c :: _ => c == '"' || c == '“' || c == '‘'

/-- The diff step (`translate_epub` lines 197-202): collect, in order, the
(original index, stripped text) of every node whose `chunk0_line{idx}` key is
absent from the checkpoint lines. -/
def diffItem (nodes : List Str) (lines : List (Str × LineData)) : List (Nat × Str) :=
  ((List.enum nodes).filter
      (fun p => (lookupLine lines (lineKey0 p.1)).isNone)).map
    (fun p => (p.1, pyStrip p.2))

/-- The save loop (`translate_epub` lines 225-230): persist each
(original index, translated text) pair under key `chunk{jF}_line{idx}`. -/
def saveAll (lines0 : List (Str × LineData)) (jF : Nat) (pairs : List (Nat × Str)) :
    List (Str × LineData) :=
  pairs.foldl
    (fun acc pr => insertLine acc (chunkKey jF pr.1) ⟨pr.2, isDia pr.2⟩) lines0

/-- The advertisement string removed at `translate_epub` line 217. -/
def adPattern : Str := strL "Translated with DeepL.com (free version)"

/-- Post-processing of a raw translation result (`translate_epub` line 217):
strip the DeepL advertisement and surrounding whitespace. -/
def scrub (s : Str) : Str := pyStrip (pyReplace adPattern [] s)

/-- The failure-marker test of `translate_epub` line 219. -/
def failedSub : Str := strL "[[TRANSLATION FAILED"

/-- Lines 216-220 of `translate_epub`: scrub the response; if it carries the
failure marker, substitute the chunk's own (untranslated) source text. -/
def chunkResult (chunk resp : Str) : Str :=
  let t := scrub resp
  if hasSub failedSub t then chunk else t

/-- The chunk loop of `translate_epub` (lines 212-222).  `j` is the
enumerate index; the result also returns the final value of the Python loop
variable `j`, which leaks out of the loop and is used by the save loop (it is
the break index on a stop, and the last chunk index otherwise; for an empty
chunk list Python would leave `j` unbound — that state is unreachable because
the save loop is then guarded off by the alignment check). -/
def chunkLoopGo (stopC : Nat → Bool) (oracle : Nat → Str) :
    Nat → List Str → List Str × Nat
  | j, [] => ([], j - 1)
  | j, c :: rest =>
    if stopC j then ([], j)
    else
      let out := chunkResult c (oracle j)
      let r := chunkLoopGo stopC oracle (j + 1) rest
      (pySplit TEXT_DELIMITER out ++ r.1, r.2)

/-- The chunks an item's missing segments are batched into
(`translate_epub` line 207, with `translator.max_input_length` abstracted as
`mc`). -/
def itemChunks (nodes : List Str) (lines0 : List (Str × LineData)) (mc : Nat) :
    List Str :=
  intelligent_chunk_text ((diffItem nodes lines0).map (fun p => p.2)) mc

/-- Translate all chunks of an item: the translated line list and the final
chunk-loop index `j`. -/
def itemTrans (stopC : Nat → Bool) (oracle : Nat → Str) (nodes : List Str)
    (lines0 : List (Str × LineData)) (mc : Nat) : List Str × Nat :=
  chunkLoopGo stopC oracle 0 (itemChunks nodes lines0 mc)

/-- Leading single-space preservation (`translate_epub` line 248). -/
def leadSp (raw : Str) : Str := if raw.head? = some ' ' then [' '] else []

/-- Trailing single-space preservation (`translate_epub` line 249). -/
def trailSp (raw : Str) : Str := if raw.getLast? = some ' ' then [' '] else []

/-- The reconstruction step (`translate_epub` lines 238-257): for each node
index whose `chunk0_line{idx}` key is found, the replacement text written
into the document (leading space + stored text + trailing space). -/
def reconList (nodes : List Str) (lines : List (Str × LineData)) :
    List (Nat × Str) :=
  (List.enum nodes).filterMap
    (fun p =>
      match lookupLine lines (lineKey0 p.1) with
      | some ld => some (p.1, leadSp p.2 ++ ld.text ++ trailSp p.2)
      | none => none)

/-- Outcome of processing one content item: its checkpoint record after the
pass, whether the progress callback fired for it, and the node replacements
written into the document. -/
structure ItemResult where
  rcd : ItemRec
  cbFired : Bool
  recon : List (Nat × Str)
deriving DecidableEq

/-- The body of the per-item part of `translate_epub` (lines 175-265) for a
not-yet-completed item.  `nodes` is the item's ordered list of translatable
text-node strings (the extraction filter of lines 181-184 is upstream).
Paths: no translatable text (mark completed, no callback, line 186-189);
nothing missing (straight to reconstruction and completion); translated and
aligned (save under `chunk{j}` keys, reconstruct, complete, callback);
alignment failure (skip the item: nothing saved, not completed, no callback,
lines 231-233). -/
def processItemBody (mc : Nat) (stopC : Nat → Bool) (oracle : Nat → Str)
    (nodes : List Str) (r0 : ItemRec) : ItemResult :=
  if nodes = [] then ⟨⟨r0.lines, true⟩, false, []⟩
  else if diffItem nodes r0.lines = [] then
    ⟨⟨r0.lines, true⟩, true, reconList nodes r0.lines⟩
  else
    let res := itemTrans stopC oracle nodes r0.lines mc
    if res.1.length = (diffItem nodes r0.lines).length then
      let lines1 :=
        saveAll r0.lines res.2
          (List.zip ((diffItem nodes r0.lines).map (fun p => p.1)) res.1)
      ⟨⟨lines1, true⟩, true, reconList nodes lines1⟩
    else ⟨⟨r0.lines, false⟩, false, []⟩

/-- Processing of one content item, including the completed-skip check of
`translate_epub` lines 168-173 (a skip still fires the progress callback). -/
def processItem (mc : Nat) (stopC : Nat → Bool) (oracle : Nat → Str)
    (nodes : List Str) (rec0 : Option ItemRec) : ItemResult :=
  match rec0 with
  | some r0 =>
    if r0.completed then ⟨r0, true, []⟩
    else processItemBody mc stopC oracle nodes r0
  | none => processItemBody mc stopC oracle nodes ⟨[], false⟩

/-- The run loop of `translate_epub` (lines 160-265) over the content items:
`i` is the item position, `N` the total section count; returns the item
records in order and the list of percentages passed to the progress
callback.  `itemStop` models the per-item stop check of line 161 (which
aborts the whole run). -/
def runGo (mc N : Nat) (itemStop : Nat → Bool) (stopC : Nat → Nat → Bool)
    (oracle : Nat → Nat → Str) (recs : Nat → Option ItemRec) :
    Nat → List (List Str) → List ItemRec × List ℚ
  | _, [] => ([], [])
  | i, nodes :: rest =>
    if itemStop i then ([], [])
    else
      let res := processItem mc (stopC i) (oracle i) nodes (recs i)
      let r := runGo mc N itemStop stopC oracle recs (i + 1) rest
      (res.rcd :: r.1,
        (if res.cbFired then [((i : ℚ) + 1) / (N : ℚ) * 100] else []) ++ r.2)

/-- A whole run over a list of content items (each given by its node list),
starting from per-item checkpoint records `recs`. -/
def runModel (mc : Nat) (itemStop : Nat → Bool) (stopC : Nat → Nat → Bool)
    (oracle : Nat → Nat → Str) (items : List (List Str))
    (recs : Nat → Option ItemRec) : List ItemRec × List ℚ :=
  runGo mc items.length itemStop stopC oracle recs 0 items

/-- `DeepLTranslator.max_input_length` (`deepl_translator.py` line 20). -/
def max_input_length : Nat := 4950

/-- `DeepLTranslator.retry_attempts` (`deepl_translator.py` line 65). -/
def retry_attempts : Nat := 3

/-- The string returned when a stop signal interrupts a chunk translation. -/
def stoppedMarker : Str := strL "[[TRANSLATION_STOPPED]]"

/-- The string returned on a detected usage-limit (quota) condition
(`deepl_translator.py` line 386). -/
def quotaMarker : Str := strL "[[TRANSLATION FAILED: USAGE LIMIT REACHED]]"

/-- The string returned when all retry attempts fail
(`deepl_translator.py` lines 395/397). -/
def failedMarker (chunk : Str) : Str :=
  strL "[[TRANSLATION FAILED: " ++ chunk.take 50 ++ strL "...]]"

/-- The quota pattern-match of `deepl_translator.py` line 383:
`"usage limit" in str(e).lower()`. -/
def usageLimitIn (m : Str) : Bool := hasSub (strL "usage limit") (toLowerS m)

/-- What one attempt of the retry loop observes from the session: a raw
translated text from `wait_for_response`, an exception with a message, or a
stop signal (covering the loop-top stop check, the cooldown stop checks and
`InterruptedError`, all of which return the stopped marker). -/
inductive AttemptOutcome where
  | ok (t : Str)
  | err (msg : Str)
  | stopsig
deriving DecidableEq

/-- The exception message raised on a blank translation
(`deepl_translator.py` line 376). -/
def emptyMsg : Str := strL "Received an empty or invalid translation."

/-- The retry loop of `_translate_chunk_with_verification`
(`deepl_translator.py` lines 330-397): `a` is the attempt index, `fuel` the
remaining iterations of `range(retry_attempts)`.  Returns the result string
and the number of attempts that were entered. -/
def retryGo (chunk : Str) (att : Nat → AttemptOutcome) : Nat → Nat → Str × Nat
  | _, 0 => (failedMarker chunk, 0)
  | a, fuel + 1 =>
    match att a with
    | .stopsig => (stoppedMarker, 1)
    | .ok t =>
      if pyStrip t = [] then
        if usageLimitIn (toLowerS emptyMsg) then (quotaMarker, 1)
        else if a < retry_attempts - 1 then
          let r := retryGo chunk att (a + 1) fuel
          (r.1, r.2 + 1)
        else (failedMarker chunk, 1)
      else (t, 1)
    | .err m =>
      if usageLimitIn m then (quotaMarker, 1)
      else if a < retry_attempts - 1 then
        let r := retryGo chunk att (a + 1) fuel
        (r.1, r.2 + 1)
      else (failedMarker chunk, 1)

/-- The input clipping of `deepl_translator.py` line 327:
`if len(chunk) > self.max_input_length: chunk = chunk[:self.max_input_length]`. -/
def clipChunk (maxLen : Nat) (c : Str) : Str :=
  if maxLen < c.length then c.take maxLen else c

/-- Result of `_translate_chunk_with_verification`: the returned string,
whether the processing lock was acquired (whether execution reached the
`with self.processing_lock` block of line 329), and how many retry attempts
were entered. -/
structure TCResult where
  result : Str
  lockAcquired : Bool
  attempts : Nat
deriving DecidableEq

/-- `_translate_chunk_with_verification` (`deepl_translator.py` lines
323-397): stop check, blank-chunk early return, clipping, then the
lock-protected retry loop. -/
def translateChunkModel (stop0 : Bool) (chunk : Str) (att : Nat → AttemptOutcome)
    (maxLen : Nat) : TCResult :=
  if stop0 then ⟨stoppedMarker, false, 0⟩
  else if pyStrip chunk = [] then ⟨[], false, 0⟩
  else
    let c := clipChunk maxLen chunk
    let r := retryGo c att 0 retry_attempts
    ⟨r.1, true, r.2⟩

/-- `required_stable_cycles` (`deepl_translator.py` line 265). -/
def required_stable_cycles : Nat := 3

/-- One polling cycle of `wait_for_response` (`deepl_translator.py` lines
286-293) on state (`last_text`, `stable_cycles`). -/
def pollStep (st : Str × Nat) (sample : Str) : Str × Nat :=
  if sample ≠ [] ∧ sample = st.1 then (st.1, st.2 + 1)
  else if sample ≠ [] then (sample, 1)
  else (st.1, 0)

/-- The stabilization loop of `wait_for_response` over the list of samples
observed within the overall wait budget: returns the stabilized text
together with the number of samples consumed, or `none` when the budget runs
out before stabilization (the timeout path of line 321). -/
def pollCycles (st : Str × Nat) : List Str → Option (Str × Nat)
  | [] => none
  | s :: rest =>
    let st1 := pollStep st s
    if required_stable_cycles ≤ st1.2 then some (st1.1, 1)
    else (pollCycles st1 rest).map (fun p => (p.1, p.2 + 1))

/-- A break record of the whitespace descriptor
(`translator_base.py` line 42): `{'position': ..., 'type': ...}`.  Fields
are optional to model possibly-malformed dict entries; bracket access on a
missing field raises. -/
structure BreakRec where
  position : Option Nat
  btype : Option Str
deriving DecidableEq

/-- The whitespace descriptor dict passed to `reconstruct_whitespace`.
Every field the function reads with `.get(key, default)` is optional,
modelling missing keys. -/
structure WSInfo where
  leading_spaces : Option Str
  trailing_spaces : Option Str
  has_paragraphs : Option Bool
  breaks : Option (List BreakRec)
  extra_spaces : Option (List (Nat × Str))
deriving DecidableEq

/-- Sentence split of `translator_base.py` line 79:
`re.split(r'(?<=[.!?])\s+', text)` — cut after a sentence-final punctuation
character followed by a whitespace run, consuming the run. -/
def sentGo (acc : Str) : Nat → Str → List Str
  | _, [] => [acc.reverse]
  | 0, s => [acc.reverse ++ s]
  | fuel + 1, c :: rest =>
    if (c == '.' || c == '!' || c == '?')
        && (match rest.head? with | some w => isWS w | none => false) then
      (acc.reverse ++ [c]) :: sentGo [] fuel (rest.dropWhile isWS)
    else sentGo (c :: acc) fuel rest

/-- Wrapper for `sentGo` with sufficient fuel. -/
def sentSplit (s : Str) : List Str := sentGo [] s.length s

/-- Index of the last newline in a string, if any. -/
def lastNl : Str → Option Nat
  | [] => none
  | c :: rest =>
    match lastNl rest with
    | some k => some (k + 1)
    | none => if c = '\n' then some 0 else none

/-- Newline split of `translator_base.py` line 88:
`re.split(r'\n\s*\n|\n', text)`.  At a newline, the greedy alternative
`\n\s*\n` consumes up to the last newline inside the whitespace run that
follows; otherwise a single newline is consumed. -/
def nlGo (acc : Str) : Nat → Str → List Str
  | _, [] => [acc.reverse]
  | 0, s => [acc.reverse ++ s]
  | fuel + 1, c :: rest =>
    if c = '\n' then
      match lastNl (rest.takeWhile isWS) with
      | some k => acc.reverse :: nlGo [] fuel (rest.drop (k + 1))
      | none => acc.reverse :: nlGo [] fuel rest
    else nlGo (c :: acc) fuel rest

/-- Wrapper for `nlGo` with sufficient fuel. -/
def nlSplit (s : Str) : List Str := nlGo [] s.length s

/-- Group a list into sublists of 5 (`translator_base.py` line 80). -/
def chunk5Go : Nat → List Str → List (List Str)
  | _, [] => []
  | 0, l => [l]
  | fuel + 1, a :: rest => (a :: rest.take 4) :: chunk5Go fuel (rest.drop 4)

/-- Wrapper for `chunk5Go` with sufficient fuel. -/
def chunk5 (l : List Str) : List (List Str) := chunk5Go l.length l

/-- Stable ascending insertion by break position (models Python's stable
`sorted(..., key=lambda x: x['position'])`; positions are all present when
this runs). -/
def insBrk (b : BreakRec) : List BreakRec → List BreakRec
  | [] => [b]
  | x :: xs =>
    if b.position.getD 0 ≤ x.position.getD 0 then b :: x :: xs
    else x :: insBrk b xs

/-- Stable insertion sort of break records by position. -/
def sortBreaks : List BreakRec → List BreakRec
  | [] => []
  | b :: rest => insBrk b (sortBreaks rest)

/-- The inner while loop of `reconstruct_whitespace` (lines 101-104): emit
segments while `current_pos <= break position` (or the break list is empty),
advancing `current_pos` by each segment's length.  Returns (emitted,
remaining segments, new position). -/
def eatSegs (bpos : Nat) (emptyBreaks : Bool) : List Str → Nat → List Str × List Str × Nat
  | [], pos => ([], [], pos)
  | s :: rest, pos =>
    if pos ≤ bpos ∨ emptyBreaks then
      let r := eatSegs bpos emptyBreaks rest (pos + s.length)
      (s :: r.1, r.2.1, r.2.2)
    else ([], s :: rest, pos)

/-- The break loop of `reconstruct_whitespace` (lines 100-110); bracket
access to a missing `position`/`type` field raises (`.error`). -/
def applyBreaks : List BreakRec → List Str → Nat → Bool →
    Except Unit (List Str × List Str × Nat)
  | [], segs, cpos, _ => .ok ([], segs, cpos)
  | b :: rest, segs, cpos, eb =>
    match b.position with
    | none => .error ()
    | some bp =>
      let e := eatSegs bp eb segs cpos
      match b.btype with
      | none => .error ()
      | some bt =>
        let step :=
          if bt = strL "paragraph" then ([strL "\n\n"], e.2.2 + 2)
          else if bt = strL "line" then ([strL "\n"], e.2.2 + 1)
          else (([] : List Str), e.2.2)
        match applyBreaks rest e.2.1 step.2 eb with
        | .error u => .error u
        | .ok r => .ok (e.1 ++ step.1 ++ r.1, r.2.1, r.2.2)

/-- Descending insertion by position for the extra-space map
(`sorted(extra_spaces.items(), reverse=True)`, line 119; keys are distinct). -/
def insDesc (p : Nat × Str) : List (Nat × Str) → List (Nat × Str)
  | [] => [p]
  | x :: xs => if x.1 < p.1 then p :: x :: xs else x :: insDesc p xs

/-- Sort the extra-space pairs by position, highest first. -/
def sortDesc : List (Nat × Str) → List (Nat × Str)
  | [] => []
  | p :: rest => insDesc p (sortDesc rest)

/-- Splice recorded multi-space runs back in, highest offset first
(`reconstruct_whitespace` lines 117-121). -/
def applyExtras (l : List (Nat × Str)) (ft : Str) : Str :=
  (sortDesc l).foldl
    (fun acc pr =>
      if pr.1 ≤ acc.length then acc.take pr.1 ++ pr.2 ++ acc.drop pr.1 else acc)
    ft

/-- The `try` body of `TranslatorBase.reconstruct_whitespace`
(`translator_base.py` lines 72-129); `.error` marks the internal failures
that the `except` handler catches (bracket access on malformed break
records). -/
def reconstructBody (t : Str) (info : WSInfo) : Except Unit Str :=
  if pyStrip t = [] then
    .ok (info.leading_spaces.getD [] ++ info.trailing_spaces.getD [])
  else if (info.has_paragraphs.getD false) = false then
    .ok (info.leading_spaces.getD []
      ++ joinD (strL "\n\n") ((chunk5 (sentSplit t)).map (joinD (strL " ")))
      ++ info.trailing_spaces.getD [])
  else
    let segs := ((nlSplit t).map pyStrip).filter (fun s => !s.isEmpty)
    if segs = [] then
      .ok (info.leading_spaces.getD [] ++ t ++ info.trailing_spaces.getD [])
    else
      let bl := info.breaks.getD []
      if bl.any (fun b => b.position.isNone) then .error ()
      else
        let bl1 := sortBreaks bl
        match applyBreaks bl1 segs 0 (decide (bl1 = [])) with
        | .error u => .error u
        | .ok r =>
          let ft := applyExtras (info.extra_spaces.getD []) (r.1 ++ r.2.1).flatten
          .ok (info.leading_spaces.getD [] ++ ft ++ info.trailing_spaces.getD [])

/-- `TranslatorBase.reconstruct_whitespace` (`translator_base.py` lines
70-133): run the body; on any internal failure fall back to
leading + translated + trailing (the `except` handler, lines 130-133). -/
def reconstruct_whitespace (t : Str) (info : WSInfo) : Str :=
  match reconstructBody t info with
  | .ok s => s
  | .error _ =>
    info.leading_spaces.getD [] ++ t ++ info.trailing_spaces.getD []

/-- Loop invariant of the `intelligent_chunk_text` fold over the processed
prefix `done` of the segment list: the emitted chunks are the joins of a
partition of the already-flushed segments, every emitted chunk either fits
the budget or is a single (oversized) input segment, `current_len` bounds
the joined length of the pending batch, and the pending batch itself either
fits or is a single input segment. -/
def chunkInv (mc : Nat) (done : List Str) (st : List Str × List Str × Nat) : Prop :=
  (∃ pss : List (List Str),
      st.1 = pss.map (joinD TEXT_DELIMITER) ∧
      pss.flatten ++ st.2.1 = done ∧
      ∀ ps ∈ pss, ps ≠ []) ∧
  (∀ c ∈ st.1, c.length ≤ mc ∨ c ∈ done) ∧
  (joinD TEXT_DELIMITER st.2.1).length ≤ st.2.2 ∧
  ((joinD TEXT_DELIMITER st.2.1).length ≤ mc ∨ ∃ t ∈ done, st.2.1 = [t])

/-! ## Lemmas about `isPrefOf` and the Python split -/

theorem isPrefOf_append_self (d t : Str) : isPrefOf d (d ++ t) = true := by
  induction d with
  | nil => rfl
  | cons c d ih => simp [isPrefOf, ih]

theorem isPrefOf_mono (d : Str) :
    ∀ t r : Str, isPrefOf d t = true → isPrefOf d (t ++ r) = true := by
  induction d with
  | nil => intro t r _; rfl
  | cons c d ih =>
    intro t r h
    cases t with
    | nil => simp [isPrefOf] at h
    | cons b t' =>
      simp only [isPrefOf, Bool.and_eq_true] at h ⊢
      exact ⟨h.1, ih t' r h.2⟩

theorem isPrefOf_stable (d : Str) :
    ∀ s r : Str, d.length ≤ s.length → isPrefOf d (s ++ r) = isPrefOf d s := by
  induction d with
  | nil => intro s r _; rfl
  | cons c d ih =>
    intro s r h
    cases s with
    | nil => simp at h
    | cons b s' =>
      show (c == b && isPrefOf d (s' ++ r)) = (c == b && isPrefOf d s')
      rw [ih s' r (by simpa using h)]

theorem splitGo_scan (d : Str) :
    ∀ (p : Str) (fuel : Nat) (acc tail : Str),
      (∀ i, i < p.length → isPrefOf d (List.drop i (p ++ tail)) = false) →
      splitGo d acc (p.length + fuel) (p ++ tail) =
        splitGo d (p.reverse ++ acc) fuel tail := by
  intro p
  induction p with
  | nil => intro fuel acc tail _; simp
  | cons c p ih =>
    intro fuel acc tail h
    have h0 : isPrefOf d (c :: (p ++ tail)) = false := by
      simpa using h 0 (by simp)
    have hlen : (c :: p).length + fuel = (p.length + fuel) + 1 := by
      simp [List.length_cons]; omega
    rw [hlen]
    show splitGo d acc ((p.length + fuel) + 1) (c :: (p ++ tail)) = _
    simp only [splitGo, h0, Bool.false_and, Bool.false_eq_true, if_false]
    rw [ih fuel (c :: acc) tail ?_]
    · simp [List.reverse_cons, List.append_assoc]
    · intro i hi
      have := h (i + 1) (by simp; omega)
      simpa [List.drop_succ_cons] using this

theorem splitGo_boundary (d : Str) (hd : d ≠ []) (fuel : Nat) (acc tail : Str) :
    splitGo d acc (fuel + 1) (d ++ tail) = acc.reverse :: splitGo d [] fuel tail := by
  cases d with
  | nil => exact absurd rfl hd
  | cons c d' =>
    have hpre : isPrefOf (c :: d') (c :: (d' ++ tail)) = true :=
      isPrefOf_append_self (c :: d') tail
    have hdrop : List.drop (c :: d').length (c :: (d' ++ tail)) = tail := by
      simp only [List.length_cons, List.drop_succ_cons]
      exact List.drop_left d' tail
    show splitGo (c :: d') acc (fuel + 1) (c :: (d' ++ tail)) = _
    simp only [splitGo, hpre, List.isEmpty_cons, Bool.not_false, Bool.and_self,
      if_true, hdrop]

theorem splitGo_last (d : Str) :
    ∀ (p : Str) (fuel : Nat) (acc : Str), p.length ≤ fuel →
      (∀ i, i < p.length → isPrefOf d (List.drop i p) = false) →
      splitGo d acc fuel p = [acc.reverse ++ p] := by
  intro p
  induction p with
  | nil => intro fuel acc _ _; cases fuel <;> simp [splitGo]
  | cons c p ih =>
    intro fuel acc hf h
    cases fuel with
    | zero => simp at hf
    | succ f =>
      have h0 : isPrefOf d (c :: p) = false := by simpa using h 0 (by simp)
      simp only [splitGo, h0, Bool.false_and, Bool.false_eq_true, if_false]
      rw [ih f (c :: acc) (by simp at hf; omega) ?_]
      · simp [List.reverse_cons, List.append_assoc]
      · intro i hi
        have := h (i + 1) (by simp; omega)
        simpa [List.drop_succ_cons] using this

/-- The reservation hypothesis on a part `p` of a join, relative to a
delimiter `d`. -/
def partOK (d p : Str) : Prop :=
  ∀ i, i < p.length → isPrefOf d (List.drop i p ++ d) = false

theorem partOK_no_inner (d p : Str) (h : partOK d p) :
    ∀ i, i < p.length → isPrefOf d (List.drop i p) = false := by
  intro i hi
  by_cases hb : isPrefOf d (List.drop i p) = true
  · have := isPrefOf_mono d (List.drop i p) d hb
    rw [h i hi] at this
    exact absurd this (by simp)
  · simpa using hb

theorem splitGo_joinD (d : Str) (hd : d ≠ []) :
    ∀ (ps : List Str), ps ≠ [] → (∀ p ∈ ps, partOK d p) →
      ∀ fuel, (joinD d ps).length ≤ fuel →
        splitGo d [] fuel (joinD d ps) = ps := by
  intro ps
  induction ps with
  | nil => intro h; exact absurd rfl h
  | cons p ps ih =>
    intro _ hOK fuel hfuel
    cases ps with
    | nil =>
      have : splitGo d [] fuel p = [List.reverse [] ++ p] :=
        splitGo_last d p fuel [] (by simpa [joinD] using hfuel)
          (partOK_no_inner d p (hOK p (by simp)))
      simpa [joinD] using this
    | cons q ps' =>
      have hdpos : 0 < d.length := List.length_pos.mpr hd
      have hJ : joinD d (p :: q :: ps') = p ++ (d ++ joinD d (q :: ps')) := by
        simp [joinD]
      rw [hJ] at hfuel ⊢
      have hlen : p.length + (d.length + (joinD d (q :: ps')).length) ≤ fuel := by
        simpa [List.length_append] using hfuel
      -- step 1: scan across p
      have hscan :
          splitGo d [] fuel (p ++ (d ++ joinD d (q :: ps'))) =
            splitGo d p.reverse (fuel - p.length) (d ++ joinD d (q :: ps')) := by
        have hf : fuel = p.length + (fuel - p.length) := by omega
        rw [hf]
        have := splitGo_scan d p (fuel - p.length) [] (d ++ joinD d (q :: ps')) ?_
        · simpa using this
        · intro i hi
          rw [List.drop_append_of_le_length (Nat.le_of_lt hi)]
          have hassoc :
              List.drop i p ++ (d ++ joinD d (q :: ps')) =
                (List.drop i p ++ d) ++ joinD d (q :: ps') := by
            simp [List.append_assoc]
          rw [hassoc, isPrefOf_stable d (List.drop i p ++ d) _
            (by simp [List.length_append])]
          exact hOK p (by simp) i hi
      rw [hscan]
      -- step 2: consume the delimiter at the boundary
      have hf2 : fuel - p.length = (fuel - p.length - 1) + 1 := by omega
      rw [hf2, splitGo_boundary d hd _ p.reverse _]
      -- step 3: recurse on the remaining parts
      rw [ih (by simp) (fun r hr => hOK r (by simp [hr]))
        (fuel - p.length - 1) (by omega)]
      simp

theorem pySplit_joinD (d : Str) (hd : d ≠ []) (ps : List Str) (hne : ps ≠ [])
    (hOK : ∀ p ∈ ps, partOK d p) :
    pySplit d (joinD d ps) = ps :=
  splitGo_joinD d hd ps hne hOK (joinD d ps).length (Nat.le_refl _)

/-! ## Structure of `intelligent_chunk_text` -/

theorem joinD_singleton (d t : Str) : joinD d [t] = t := rfl

theorem joinD_cons_cons (d a b : Str) (l : List Str) :
    joinD d (a :: b :: l) = a ++ d ++ joinD d (b :: l) := rfl

theorem joinD_append_singleton (d : Str) :
    ∀ (l : List Str) (t : Str), l ≠ [] →
      joinD d (l ++ [t]) = joinD d l ++ d ++ t := by
  intro l
  induction l with
  | nil => intro t h; exact absurd rfl h
  | cons a l ih =>
    intro t _
    cases l with
    | nil => simp [joinD]
    | cons b l' =>
      rw [List.cons_append, List.cons_append, joinD_cons_cons,
        ← List.cons_append, ih t (by simp), joinD_cons_cons]
      simp [List.append_assoc]

theorem chunkStep_inv (mc : Nat) (done : List Str) (st : List Str × List Str × Nat)
    (t : Str) (h : chunkInv mc done st) :
    chunkInv mc (done ++ [t]) (chunkStep mc st t) := by
  obtain ⟨⟨pss, hmap, hflat, hne⟩, hok, hlen, hcur⟩ := h
  unfold chunkStep
  by_cases hc : mc < st.2.2 + t.length + TEXT_DELIMITER.length ∧ st.2.1 ≠ []
  · rw [if_pos hc]
    refine ⟨⟨pss ++ [st.2.1], ?_, ?_, ?_⟩, ?_, ?_, ?_⟩
    · simp [hmap]
    · simp only [List.flatten_append, List.flatten_cons, List.flatten_nil,
        List.append_nil, List.append_assoc]
      rw [← hflat, List.append_assoc]
    · intro ps hps
      rcases List.mem_append.mp hps with hin | hin
      · exact hne ps hin
      · simpa using (List.mem_singleton.mp hin) ▸ hc.2
    · intro c hcmem
      rcases List.mem_append.mp hcmem with hin | hin
      · exact (hok c hin).imp_right (List.mem_append_left [t])
      · rw [List.mem_singleton.mp hin]
        rcases hcur with hle | ⟨t0, ht0, hceq⟩
        · exact Or.inl hle
        · rw [hceq, joinD_singleton]
          exact Or.inr (List.mem_append_left [t] ht0)
    · simp [joinD_singleton]
    · exact Or.inr ⟨t, by simp, rfl⟩
  · rw [if_neg hc]
    by_cases hcur0 : st.2.1 = []
    · refine ⟨⟨pss, hmap, ?_, hne⟩, ?_, ?_, ?_⟩
      · rw [hcur0] at hflat ⊢
        simp only [List.append_nil] at hflat
        simp [hflat]
      · exact fun c hin => (hok c hin).imp_right (List.mem_append_left [t])
      · rw [hcur0]
        simp only [List.nil_append, joinD_singleton]
        omega
      · exact Or.inr ⟨t, by simp, by rw [hcur0]; rfl⟩
    · have hfit : st.2.2 + t.length + TEXT_DELIMITER.length ≤ mc := by
        rcases Decidable.not_and_iff_or_not.mp hc with h1 | h2
        · omega
        · exact absurd hcur0 (by simpa using h2)
      have hjlen : (joinD TEXT_DELIMITER (st.2.1 ++ [t])).length =
          (joinD TEXT_DELIMITER st.2.1).length + TEXT_DELIMITER.length + t.length := by
        rw [joinD_append_singleton TEXT_DELIMITER st.2.1 t hcur0]
        simp [List.length_append]
        omega
      refine ⟨⟨pss, hmap, ?_, hne⟩, ?_, ?_, ?_⟩
      · rw [← List.append_assoc, hflat]
      · exact fun c hin => (hok c hin).imp_right (List.mem_append_left [t])
      · dsimp only; rw [hjlen]; omega
      · exact Or.inl (by dsimp only; rw [hjlen]; omega)

theorem chunkFold_inv (mc : Nat) :
    ∀ (ts : List Str) (st : List Str × List Str × Nat) (done : List Str),
      chunkInv mc done st →
      chunkInv mc (done ++ ts) (ts.foldl (chunkStep mc) st) := by
  intro ts
  induction ts with
  | nil => intro st done h; simpa using h
  | cons t ts ih =>
    intro st done h
    have := ih (chunkStep mc st t) (done ++ [t]) (chunkStep_inv mc done st t h)
    simpa [List.append_assoc] using this

theorem chunkInv_init (mc : Nat) : chunkInv mc [] ([], [], 0) := by
  refine ⟨⟨[], by simp, by simp, by simp⟩, by simp, ?_, Or.inl ?_⟩
  · simp [joinD]
  · simp [joinD]

theorem intelligent_chunk_struct (tl : List Str) (mc : Nat) :
    ∃ pss : List (List Str),
      intelligent_chunk_text tl mc = pss.map (joinD TEXT_DELIMITER) ∧
      pss.flatten = tl ∧ ∀ ps ∈ pss, ps ≠ [] := by
  by_cases h : tl = []
  · subst h
    exact ⟨[], by simp [intelligent_chunk_text], by simp, by simp⟩
  · have hinv := chunkFold_inv mc tl ([], [], 0) [] (chunkInv_init mc)
    simp only [List.nil_append] at hinv
    obtain ⟨⟨pss, hmap, hflat, hne⟩, hok, hlen, hcur⟩ := hinv
    unfold intelligent_chunk_text
    rw [if_neg h]
    by_cases hc0 : (tl.foldl (chunkStep mc) ([], [], 0)).2.1 = []
    · rw [if_neg (by simpa using hc0)]
      refine ⟨pss, hmap, ?_, hne⟩
      rw [hc0] at hflat
      simpa using hflat
    · rw [if_pos hc0]
      refine ⟨pss ++ [(tl.foldl (chunkStep mc) ([], [], 0)).2.1], by simp [hmap], ?_, ?_⟩
      · simpa [List.append_assoc] using hflat
      · intro ps hps
        rcases List.mem_append.mp hps with hin | hin
        · exact hne ps hin
        · rw [List.mem_singleton.mp hin]; exact hc0

theorem intelligent_chunk_le (tl : List Str) (mc : Nat) :
    ∀ c ∈ intelligent_chunk_text tl mc, c.length ≤ mc ∨ c ∈ tl := by
  by_cases h : tl = []
  · subst h; simp [intelligent_chunk_text]
  · have hinv := chunkFold_inv mc tl ([], [], 0) [] (chunkInv_init mc)
    simp only [List.nil_append] at hinv
    obtain ⟨⟨pss, hmap, hflat, hne⟩, hok, hlen, hcur⟩ := hinv
    unfold intelligent_chunk_text
    rw [if_neg h]
    by_cases hc0 : (tl.foldl (chunkStep mc) ([], [], 0)).2.1 = []
    · rw [if_neg (by simpa using hc0)]
      exact hok
    · rw [if_pos hc0]
      intro c hcmem
      rcases List.mem_append.mp hcmem with hin | hin
      · exact hok c hin
      · rw [List.mem_singleton.mp hin]
        rcases hcur with hle | ⟨t0, ht0, hceq⟩
        · exact Or.inl hle
        · rw [hceq, joinD_singleton]
          exact Or.inr ht0
/-! ## Checkpoint keys and the lines map -/

theorem parseNat_append (s : Str) (c : Char) :
    parseNat (s ++ [c]) = parseNat s * 10 + (c.toNat - 48) := by
  unfold parseNat
  rw [List.foldl_append]
  rfl

theorem digitOf_val (k : Nat) (hk : k < 10) : (digitOf k).toNat - 48 = k := by
  interval_cases k <;> decide

theorem parseNat_natStrGo :
    ∀ (fuel n : Nat), n ≤ fuel → parseNat (natStrGo fuel n) = n := by
  intro fuel
  induction fuel with
  | zero =>
    intro n hn
    have : n = 0 := Nat.le_zero.mp hn
    subst this
    decide
  | succ f ih =>
    intro n hn
    by_cases h : n < 10
    · simp only [natStrGo, if_pos h]
      have := digitOf_val n h
      simp [parseNat, this]
    · simp only [natStrGo, if_neg h]
      have hdiv : n / 10 < n := Nat.div_lt_self (by omega) (by omega)
      rw [parseNat_append, ih (n / 10) (by omega),
        digitOf_val (n % 10) (Nat.mod_lt n (by omega))]
      omega

theorem parseNat_natStr (n : Nat) : parseNat (natStr n) = n :=
  parseNat_natStrGo n n (Nat.le_refl n)

theorem natStr_inj {a b : Nat} (h : natStr a = natStr b) : a = b := by
  have := congrArg parseNat h
  rwa [parseNat_natStr, parseNat_natStr] at this

theorem chunkKey_inj (j : Nat) {a b : Nat} (h : chunkKey j a = chunkKey j b) :
    a = b := by
  unfold chunkKey at h
  have := congrArg (List.drop (strL "chunk" ++ natStr j ++ strL "_line").length) h
  rw [List.drop_left, List.drop_left] at this
  exact natStr_inj this

theorem lookupLine_cons (q : Str × LineData) (l : List (Str × LineData)) (k : Str) :
    lookupLine (q :: l) k = if q.1 = k then some q.2 else lookupLine l k := by
  unfold lookupLine
  by_cases hq : q.1 = k
  · rw [List.find?_cons_of_pos _ (by simpa using hq), if_pos hq]
    rfl
  · rw [List.find?_cons_of_neg _ (by simpa using hq), if_neg hq]

theorem lookupLine_update_self (k : Str) (v : LineData) :
    ∀ l : List (Str × LineData), (∃ p ∈ l, p.1 = k) →
      lookupLine (l.map (fun p => if p.1 = k then (k, v) else p)) k = some v := by
  intro l
  induction l with
  | nil =>
    intro h
    obtain ⟨p, hp, _⟩ := h
    exact absurd hp (List.not_mem_nil p)
  | cons q l ih =>
    intro h
    by_cases hq : q.1 = k
    · simp [List.map_cons, if_pos hq, lookupLine_cons]
    · simp only [List.map_cons, if_neg hq, lookupLine_cons, if_neg hq]
      obtain ⟨p0, hp0, hk0⟩ := h
      rcases List.mem_cons.mp hp0 with he | hin
      · exact absurd (he ▸ hk0) hq
      · exact ih ⟨p0, hin, hk0⟩

theorem lookupLine_append_self (k : Str) (v : LineData) :
    ∀ l : List (Str × LineData), (∀ p ∈ l, p.1 ≠ k) →
      lookupLine (l ++ [(k, v)]) k = some v := by
  intro l
  induction l with
  | nil => simp [lookupLine_cons, lookupLine]
  | cons q l ih =>
    intro h
    rw [List.cons_append, lookupLine_cons, if_neg (h q (by simp))]
    exact ih (fun p hp => h p (by simp [hp]))

theorem lookupLine_update_ne (k' k : Str) (v : LineData) (hne : k' ≠ k) :
    ∀ l : List (Str × LineData),
      lookupLine (l.map (fun p => if p.1 = k' then (k', v) else p)) k =
        lookupLine l k := by
  intro l
  induction l with
  | nil => rfl
  | cons q l ih =>
    by_cases hq : q.1 = k'
    · have hqk : q.1 ≠ k := fun hh => hne (hq ▸ hh)
      simp only [List.map_cons, if_pos hq, lookupLine_cons, if_neg hne, if_neg hqk]
      exact ih
    · simp only [List.map_cons, if_neg hq, lookupLine_cons]
      by_cases hqk : q.1 = k
      · rw [if_pos hqk, if_pos hqk]
      · rw [if_neg hqk, if_neg hqk]
        exact ih

theorem lookupLine_append_ne (k' k : Str) (v : LineData) (hne : k' ≠ k) :
    ∀ l : List (Str × LineData),
      lookupLine (l ++ [(k', v)]) k = lookupLine l k := by
  intro l
  induction l with
  | nil => simp [lookupLine_cons, lookupLine, if_neg hne]
  | cons q l ih =>
    rw [List.cons_append, lookupLine_cons, lookupLine_cons]
    by_cases hqk : q.1 = k
    · rw [if_pos hqk, if_pos hqk]
    · rw [if_neg hqk, if_neg hqk]
      exact ih

theorem lookupLine_insert_self (l : List (Str × LineData)) (k : Str) (v : LineData) :
    lookupLine (insertLine l k v) k = some v := by
  unfold insertLine
  by_cases h : l.any (fun p => decide (p.1 = k))
  · rw [if_pos h]
    simp only [List.any_eq_true, decide_eq_true_eq] at h
    exact lookupLine_update_self k v l h
  · rw [if_neg h]
    simp only [List.any_eq_true, decide_eq_true_eq] at h
    push_neg at h
    exact lookupLine_append_self k v l h

theorem lookupLine_insert_ne (l : List (Str × LineData)) (k' k : Str) (v : LineData)
    (hne : k' ≠ k) : lookupLine (insertLine l k' v) k = lookupLine l k := by
  unfold insertLine
  by_cases h : l.any (fun p => decide (p.1 = k'))
  · rw [if_pos h]
    exact lookupLine_update_ne k' k v hne l
  · rw [if_neg h]
    exact lookupLine_append_ne k' k v hne l

theorem lookupLine_saveAll_ne (jF : Nat) :
    ∀ (pairs : List (Nat × Str)) (lines0 : List (Str × LineData)) (k : Str),
      (∀ pr ∈ pairs, chunkKey jF pr.1 ≠ k) →
      lookupLine (saveAll lines0 jF pairs) k = lookupLine lines0 k := by
  intro pairs
  induction pairs with
  | nil => intro lines0 k _; rfl
  | cons pr pairs ih =>
    intro lines0 k h
    show lookupLine
      (saveAll (insertLine lines0 (chunkKey jF pr.1) ⟨pr.2, isDia pr.2⟩) jF pairs) k = _
    rw [ih _ k (fun q hq => h q (by simp [hq]))]
    exact lookupLine_insert_ne _ _ _ _ (h pr (by simp))

theorem lookupLine_saveAll_mem (jF : Nat) :
    ∀ (pairs : List (Nat × Str)) (lines0 : List (Str × LineData)) (pr : Nat × Str),
      pr ∈ pairs → (pairs.map (fun p => p.1)).Nodup →
      lookupLine (saveAll lines0 jF pairs) (chunkKey jF pr.1) =
        some ⟨pr.2, isDia pr.2⟩ := by
  intro pairs
  induction pairs with
  | nil => intro lines0 pr h; simp at h
  | cons q pairs ih =>
    intro lines0 pr hmem hnd
    simp only [List.map_cons, List.nodup_cons] at hnd
    show lookupLine
      (saveAll (insertLine lines0 (chunkKey jF q.1) ⟨q.2, isDia q.2⟩) jF pairs)
        (chunkKey jF pr.1) = _
    rcases List.mem_cons.mp hmem with he | hin
    · subst he
      rw [lookupLine_saveAll_ne jF pairs _ _ ?_]
      · exact lookupLine_insert_self _ _ _
      · intro r hr hkey
        have hr1 : r.1 = pr.1 := chunkKey_inj jF hkey
        exact hnd.1 (hr1 ▸ List.mem_map.mpr ⟨r, hr, rfl⟩)
    · exact ih _ pr hin hnd.2

theorem diffItem_fst_nodup (nodes : List Str) (lines : List (Str × LineData)) :
    ((diffItem nodes lines).map (fun p => p.1)).Nodup := by
  unfold diffItem
  have hsub : (List.filter (fun p => (lookupLine lines (lineKey0 p.1)).isNone)
      nodes.enum).Sublist nodes.enum :=
    List.filter_sublist _
  have hmap := hsub.map Prod.fst
  rw [List.enum_map_fst] at hmap
  have hnd := hmap.nodup (List.nodup_range nodes.length)
  have heq : ((List.filter (fun p => (lookupLine lines (lineKey0 p.1)).isNone)
      nodes.enum).map (fun p => (p.1, pyStrip p.2))).map (fun p => p.1) =
      (List.filter (fun p => (lookupLine lines (lineKey0 p.1)).isNone)
        nodes.enum).map Prod.fst := by
    rw [List.map_map]
    rfl
  rw [heq]
  exact hnd

/-! ## Stabilization of the polling loop -/

theorem pollAux (v : Str) (hv : v ≠ []) :
    ∀ (P : List Str) (p : Str) (st : Str × Nat) (rest : List Str),
      List.Chain' (fun a b => b ≠ a) (p :: (P ++ [v])) →
      st.2 ≤ 1 → (st.2 = 1 → st.1 = p) →
      pollCycles st (P ++ v :: v :: v :: rest) = some (v, P.length + 3) := by
  intro P
  induction P with
  | nil =>
    intro p st rest hch h1 h2
    have hvp : v ≠ p := by simpa using hch
    have hst1 : pollStep st v = (v, 1) := by
      unfold pollStep
      by_cases he : v = st.1
      · have h0 : st.2 = 0 := by
          rcases Nat.le_one_iff_eq_zero_or_eq_one.mp h1 with h | h
          · exact h
          · exact absurd (he.trans (h2 h)) hvp
        rw [if_pos ⟨hv, he⟩, ← he, h0]
      · rw [if_neg (fun hand => he hand.2), if_pos hv]
    have hs2 : pollStep (v, 1) v = (v, 2) := by simp [pollStep, hv]
    have hs3 : pollStep (v, 2) v = (v, 3) := by simp [pollStep, hv]
    simp [pollCycles, hst1, hs2, hs3, required_stable_cycles]
  | cons q P ih =>
    intro p st rest hch h1 h2
    have hch2 : List.Chain' (fun a b => b ≠ a) (p :: q :: (P ++ [v])) := by
      simpa using hch
    have hqp : q ≠ p := (List.chain'_cons.mp hch2).1
    have hchq : List.Chain' (fun a b => b ≠ a) (q :: (P ++ [v])) :=
      (List.chain'_cons.mp hch2).2
    obtain ⟨hle, himp⟩ :
        (pollStep st q).2 ≤ 1 ∧ ((pollStep st q).2 = 1 → (pollStep st q).1 = q) := by
      unfold pollStep
      by_cases hqe : q = []
      · rw [if_neg (fun hand => hand.1 hqe), if_neg (fun hand => hand hqe)]
        exact ⟨by omega, by omega⟩
      · by_cases heq : q = st.1
        · have h0 : st.2 = 0 := by
            rcases Nat.le_one_iff_eq_zero_or_eq_one.mp h1 with h | h
            · exact h
            · exact absurd (heq.trans (h2 h)) hqp
          rw [if_pos ⟨hqe, heq⟩, h0]
          exact ⟨Nat.le_refl 1, fun _ => heq.symm⟩
        · rw [if_neg (fun hand => heq hand.2), if_pos hqe]
          exact ⟨Nat.le_refl 1, fun _ => rfl⟩
    have hlt : ¬ (required_stable_cycles ≤ (pollStep st q).2) := by
      simp only [required_stable_cycles]
      omega
    show pollCycles st ((q :: P) ++ v :: v :: v :: rest) = some (v, (q :: P).length + 3)
    rw [List.cons_append]
    simp only [pollCycles]
    rw [if_neg hlt, ih q (pollStep st q) rest hchq hle himp]
    simp only [Option.map_some', List.length_cons, Option.some.injEq, Prod.mk.injEq]

/-! ## Progress callbacks -/

theorem cbVal_mono (N : Nat) {a b : Nat} (h : a ≤ b) :
    ((a : ℚ) + 1) / (N : ℚ) * 100 ≤ ((b : ℚ) + 1) / (N : ℚ) * 100 := by
  have h1 : ((a : ℚ) + 1) ≤ ((b : ℚ) + 1) :=
    add_le_add_right (Nat.cast_le.mpr h) 1
  have h2 : (0 : ℚ) ≤ ((N : ℚ))⁻¹ := inv_nonneg.mpr (Nat.cast_nonneg N)
  rw [div_eq_mul_inv, div_eq_mul_inv]
  exact mul_le_mul_of_nonneg_right (mul_le_mul_of_nonneg_right h1 h2) (by norm_num)

theorem runGo_cbs (mc N : Nat) (itemStop : Nat → Bool) (stopC : Nat → Nat → Bool)
    (oracle : Nat → Nat → Str) (recs : Nat → Option ItemRec) :
    ∀ (items : List (List Str)) (i : Nat),
      (∀ q ∈ (runGo mc N itemStop stopC oracle recs i items).2,
        ∃ k, i ≤ k ∧ k < i + items.length ∧ q = ((k : ℚ) + 1) / (N : ℚ) * 100) ∧
      List.Chain' (· ≤ ·) (runGo mc N itemStop stopC oracle recs i items).2 := by
  intro items
  induction items with
  | nil =>
    intro i
    constructor
    · intro q hq
      simp [runGo] at hq
    · simp [runGo]
  | cons nodes rest ih =>
    intro i
    cases hstop : itemStop i with
    | true =>
      constructor
      · intro q hq
        simp [runGo, hstop] at hq
      · simp [runGo, hstop]
    | false =>
      have hunf : (runGo mc N itemStop stopC oracle recs i (nodes :: rest)).2 =
          (if (processItem mc (stopC i) (oracle i) nodes (recs i)).cbFired then
            [((i : ℚ) + 1) / (N : ℚ) * 100] else []) ++
          (runGo mc N itemStop stopC oracle recs (i + 1) rest).2 := by
        simp [runGo, hstop]
      constructor
      · intro q hq
        rw [hunf] at hq
        rcases List.mem_append.mp hq with h | h
        · cases hcb : (processItem mc (stopC i) (oracle i) nodes (recs i)).cbFired with
          | true =>
            rw [hcb] at h
            simp only [if_true] at h
            rw [List.mem_singleton] at h
            exact ⟨i, Nat.le_refl i, by rw [List.length_cons]; omega, h⟩
          | false =>
            rw [hcb] at h
            simp at h
        · obtain ⟨k, hk1, hk2, hq2⟩ := (ih (i + 1)).1 q h
          exact ⟨k, by omega, by rw [List.length_cons]; omega, hq2⟩
      · rw [hunf]
        cases hcb : (processItem mc (stopC i) (oracle i) nodes (recs i)).cbFired with
        | false =>
          simpa using (ih (i + 1)).2
        | true =>
          have hcons : (if true = true then [((i : ℚ) + 1) / (N : ℚ) * 100] else []) ++
              (runGo mc N itemStop stopC oracle recs (i + 1) rest).2 =
              ((i : ℚ) + 1) / (N : ℚ) * 100 ::
                (runGo mc N itemStop stopC oracle recs (i + 1) rest).2 := by
            simp
          rw [hcons, List.chain'_cons']
          refine ⟨?_, (ih (i + 1)).2⟩
          intro y hy
          obtain ⟨k, hk1, _, hyq⟩ :=
            (ih (i + 1)).1 y (List.mem_of_mem_head? hy)
          rw [hyq]
          exact cbVal_mono N (by omega)

/-! ## Claim theorems -/

/-- Claim C1 (code bug): the claim says every translated line is persisted
under the constant key `chunk0_line{index}` that the diff and reconstruction
steps look up, regardless of how many chunks the item was batched into.  The
code instead saves under `f"chunk{j}"` where `j` leaks from the chunk loop as
the last chunk index (`translate_epub` line 230).  Evaluating the model on an
item whose two segments batch into two chunks: the translated lines are
persisted under `chunk1_line{idx}`, the `chunk0_line0` lookup fails, the
reconstruction step replaces no node (the document is left untranslated), and
a later pass diffing against the persisted lines re-finds both segments as
untranslated. -/
theorem C1_chunk_key_mismatch :
    lookupLine (processItem 12 (fun _ => false)
        (fun j => if j == 0 then strL "AAAA" else strL "BBBB")
        [strL "aaaa", strL "bbbb"] none).rcd.lines (lineKey0 0) = none ∧
    lookupLine (processItem 12 (fun _ => false)
        (fun j => if j == 0 then strL "AAAA" else strL "BBBB")
        [strL "aaaa", strL "bbbb"] none).rcd.lines (chunkKey 1 0) =
      some ⟨strL "AAAA", false⟩ ∧
    (processItem 12 (fun _ => false)
        (fun j => if j == 0 then strL "AAAA" else strL "BBBB")
        [strL "aaaa", strL "bbbb"] none).recon = [] ∧
    diffItem [strL "aaaa", strL "bbbb"]
        (processItem 12 (fun _ => false)
          (fun j => if j == 0 then strL "AAAA" else strL "BBBB")
          [strL "aaaa", strL "bbbb"] none).rcd.lines =
      [(0, strL "aaaa"), (1, strL "bbbb")] := by decide

/-- Claim C2, counterexample: a quota outcome on chunk 0 of item 0 does not
halt the run.  The orchestrator substitutes the chunk's source text `aaaa`,
persists its line, translates the later chunk (`XXXX`), marks the item
completed, and fully processes the later item (`YY`). -/
theorem C2_quota_run_continues :
    (runModel 12 (fun _ => false) (fun _ _ => false)
        (fun i j => if i == 0 then (if j == 0 then quotaMarker else strL "XXXX")
          else strL "YY")
        [[strL "aaaa", strL "bbbb"], [strL "c"]] (fun _ => none)).1 =
      [⟨[(chunkKey 1 0, ⟨strL "aaaa", false⟩),
         (chunkKey 1 1, ⟨strL "XXXX", false⟩)], true⟩,
       ⟨[(chunkKey 0 0, ⟨strL "YY", false⟩)], true⟩] := by decide

/-- Claim C2, amended: a detected quota/usage-limit condition does abort the
remaining retry attempts of the request (exactly one attempt is consumed and
the distinct quota marker is returned), but it is not fatal to the run: the
quota marker carries the generic failure prefix, so the orchestrator
substitutes the chunk's own source text (and then persists it and continues,
as the counterexample shows). -/
theorem C2_amended_quota_nonfatal (c : Str) (att : Nat → AttemptOutcome)
    (m : Str) (hatt : att 0 = .err m) (hql : usageLimitIn m = true) :
    retryGo c att 0 retry_attempts = (quotaMarker, 1) ∧
    chunkResult c quotaMarker = c := by
  constructor
  · show retryGo c att 0 (2 + 1) = (quotaMarker, 1)
    simp [retryGo, hatt, hql]
  · have hmark : hasSub failedSub (scrub quotaMarker) = true := by decide
    simp [chunkResult, hmark]

/-- Witness for the amended C2 theorem at a concrete session. -/
theorem C2_amended_witness :
    retryGo (strL "src") (fun _ => AttemptOutcome.err (strL "usage limit"))
        0 retry_attempts = (quotaMarker, 1) ∧
    chunkResult (strL "src") quotaMarker = strL "src" :=
  C2_amended_quota_nonfatal (strL "src")
    (fun _ => AttemptOutcome.err (strL "usage limit")) (strL "usage limit")
    rfl (by decide)

/-- Claim C3, counterexample: two segments batch into two chunks; chunk 0 is
translated (the oracle returns `AAAA`), then the stop flag breaks the chunk
loop before chunk 1.  The claim says chunk 0's line was already persisted
before chunk 1 started; in fact the alignment check fails (1 line vs 2
expected) and the resulting checkpoint holds no lines at all. -/
theorem C3_interrupt_persists_nothing :
    processItem 12 (fun j => j == 1)
      (fun j => if j == 0 then strL "AAAA" else strL "BBBB")
      [strL "aaaa", strL "bbbb"] none = ⟨⟨[], false⟩, false, []⟩ := by decide

/-- Claim C3, amended: checkpoint lines are written (one write per line)
only after all of the item's chunks have been translated and the alignment
check passes; every (index, text) pair is then found in the checkpoint under
its `chunk{jF}` key.  When the chunk loop is interrupted (or any other
alignment mismatch occurs), nothing at all is persisted for that item in
this pass.  -/
theorem C3_amended_persist_after_alignment (mc : Nat) (stopC : Nat → Bool)
    (oracle : Nat → Str) (nodes : List Str) (lines0 : List (Str × LineData))
    (hn : nodes ≠ []) :
    ((itemTrans stopC oracle nodes lines0 mc).1.length =
        (diffItem nodes lines0).length →
      ∀ pr ∈ List.zip ((diffItem nodes lines0).map (fun p => p.1))
          (itemTrans stopC oracle nodes lines0 mc).1,
        lookupLine (processItem mc stopC oracle nodes
            (some ⟨lines0, false⟩)).rcd.lines
          (chunkKey (itemTrans stopC oracle nodes lines0 mc).2 pr.1) =
          some ⟨pr.2, isDia pr.2⟩) ∧
    ((itemTrans stopC oracle nodes lines0 mc).1.length ≠
        (diffItem nodes lines0).length →
      processItem mc stopC oracle nodes (some ⟨lines0, false⟩) =
        ⟨⟨lines0, false⟩, false, []⟩) := by
  have hred : processItem mc stopC oracle nodes (some ⟨lines0, false⟩) =
      processItemBody mc stopC oracle nodes ⟨lines0, false⟩ := by
    simp [processItem]
  constructor
  · intro hlen pr hpr
    rw [hred]
    unfold processItemBody
    rw [if_neg hn]
    by_cases hdiff : diffItem nodes lines0 = []
    · rw [hdiff] at hpr
      simp at hpr
    · rw [if_neg hdiff]
      dsimp only
      rw [if_pos hlen]
      apply lookupLine_saveAll_mem _ _ _ pr hpr
      rw [List.map_fst_zip _ _ (by rw [List.length_map]; omega)]
      exact diffItem_fst_nodup nodes lines0
  · intro hlen
    rw [hred]
    unfold processItemBody
    rw [if_neg hn]
    by_cases hdiff : diffItem nodes lines0 = []
    · exfalso
      apply hlen
      rw [hdiff]
      simp [itemTrans, itemChunks, hdiff, intelligent_chunk_text, chunkLoopGo]
    · rw [if_neg hdiff]
      dsimp only
      rw [if_neg hlen]

/-- Witness for the amended C3 theorem: on the two-chunk item, the line for
segment 0 is found in the checkpoint under its saved key after the full,
uninterrupted pass. -/
theorem C3_amended_witness :
    lookupLine (processItem 12 (fun _ => false)
        (fun j => if j == 0 then strL "AAAA" else strL "BBBB")
        [strL "aaaa", strL "bbbb"] (some ⟨[], false⟩)).rcd.lines
      (chunkKey (itemTrans (fun _ => false)
          (fun j => if j == 0 then strL "AAAA" else strL "BBBB")
          [strL "aaaa", strL "bbbb"] [] 12).2 (0, strL "AAAA").1) =
      some ⟨(0, strL "AAAA").2, isDia (0, strL "AAAA").2⟩ :=
  (C3_amended_persist_after_alignment 12 (fun _ => false)
      (fun j => if j == 0 then strL "AAAA" else strL "BBBB")
      [strL "aaaa", strL "bbbb"] [] (by decide)).1 (by decide)
    (0, strL "AAAA") (by decide)

/-- Claim C4: splitting each chunk produced by the chunker on the reserved
delimiter and concatenating the per-chunk results in order yields exactly
the original segment list.  The hypothesis `delimOK` formalises the
delimiter's reservation: no delimiter occurrence starts inside any segment,
even completed by the delimiter appended after it. -/
theorem C4_chunk_split_roundtrip (tl : List Str) (mc : Nat)
    (hOK : ∀ t ∈ tl, delimOK t) :
    ((intelligent_chunk_text tl mc).map (pySplit TEXT_DELIMITER)).flatten = tl := by
  obtain ⟨pss, hmap, hflat, hne⟩ := intelligent_chunk_struct tl mc
  rw [hmap, List.map_map]
  have hmapid : pss.map (pySplit TEXT_DELIMITER ∘ joinD TEXT_DELIMITER) =
      pss.map id := by
    apply List.map_congr_left
    intro ps hps
    show pySplit TEXT_DELIMITER (joinD TEXT_DELIMITER ps) = ps
    apply pySplit_joinD TEXT_DELIMITER (by decide) ps (hne ps hps)
    intro p hp
    have hptl : p ∈ tl := by
      rw [← hflat]
      exact List.mem_flatten.mpr ⟨ps, hps, hp⟩
    exact fun i hi => hOK p hptl i hi
  rw [hmapid, List.map_id, hflat]

/-- Witness for C4 on the spec's own scenario segments. -/
theorem C4_witness :
    ((intelligent_chunk_text [strL "Hello", strL "world", strL "foo"] 1000).map
      (pySplit TEXT_DELIMITER)).flatten =
      [strL "Hello", strL "world", strL "foo"] :=
  C4_chunk_split_roundtrip [strL "Hello", strL "world", strL "foo"] 1000
    (by decide)

/-- Claim C5: if the sampled output changes every cycle (also from the
initial empty `last_text`) for `K = P.length` cycles and then holds a
non-empty value `v`, the polling loop returns `v` after consuming exactly
three samples of the held value — regardless of `K`, and never earlier
(the consumed-sample count is exactly `P.length + 3`).  An empty sample
always resets the stability counter to 0. -/
theorem C5_stabilization (P : List Str) (v : Str) (rest : List Str)
    (hv : v ≠ [])
    (hch : List.Chain' (fun a b => b ≠ a) ([] :: (P ++ [v]))) :
    pollCycles ([], 0) (P ++ v :: v :: v :: rest) = some (v, P.length + 3) ∧
    (∀ st : Str × Nat, (pollStep st []).2 = 0) := by
  constructor
  · exact pollAux v hv P [] ([], 0) rest hch (by omega)
      (fun h => absurd h (by omega))
  · intro st
    simp [pollStep]

/-- Witness for C5: one changing cycle, then three samples of the held
value. -/
theorem C5_witness :
    pollCycles ([], 0) ([strL "a"] ++ strL "b" :: strL "b" :: strL "b" :: []) =
      some (strL "b", [strL "a"].length + 3) :=
  (C5_stabilization [strL "a"] (strL "b") [] (by decide)
    (List.chain'_cons.mpr ⟨by decide,
      List.chain'_cons.mpr ⟨by decide, List.chain'_singleton _⟩⟩)).1

/-- Claim C6, counterexample: a stop signal raised inside the translation of
an item's single chunk makes the client return `[[TRANSLATION_STOPPED]]`.
That marker does not contain the `[[TRANSLATION FAILED` prefix, so it is not
substituted; the alignment check passes (1 line vs 1 segment), and the stop
marker is persisted as the segment's translation and written into the
reconstructed document. -/
theorem C6_stop_marker_persisted :
    processItem 100 (fun _ => false) (fun _ => stoppedMarker) [strL "hello"]
        none =
      ⟨⟨[(strL "chunk0_line0", ⟨stoppedMarker, false⟩)], true⟩, true,
        [(0, stoppedMarker)]⟩ := by decide

/-- Claim C6, amended: whenever a chunk's (scrubbed) translation result
carries the failure marker — which covers both the all-retries-failed marker
and the quota marker — the orchestrator substitutes the chunk's untranslated
source text, so no *failure* marker is ever persisted; the *stop* marker,
however, passes through unsubstituted (and can be persisted when the line
count happens to align, as the counterexample shows). -/
theorem C6_amended_failed_substitution (c resp : Str) :
    (hasSub failedSub (scrub resp) = true → chunkResult c resp = c) ∧
    chunkResult c stoppedMarker = stoppedMarker := by
  constructor
  · intro h
    simp [chunkResult, h]
  · have h1 : scrub stoppedMarker = stoppedMarker := by decide
    have h2 : hasSub failedSub stoppedMarker = false := by decide
    simp [chunkResult, h1, h2]

/-- Witness for the amended C6 theorem: a failed chunk's source text is
substituted for the failure marker. -/
theorem C6_amended_witness :
    chunkResult (strL "src") (failedMarker (strL "x")) = strL "src" :=
  (C6_amended_failed_substitution (strL "src") (failedMarker (strL "x"))).1
    (by decide)

/-- Claim C7, counterexample: a lone segment longer than `maxChars` is not
clipped by the chunk operation — it is emitted as its own oversized chunk
unchanged (length 4 > 3). -/
theorem C7_no_clipping_in_chunker :
    intelligent_chunk_text [strL "aaaa"] 3 = [strL "aaaa"] ∧
    ¬ ((strL "aaaa").length ≤ 3) := by decide

/-- Claim C7, amended: the chunker is greedy and never clips — every chunk
it emits either fits `maxChars` or is a single input segment passed through
unchanged; the clipping to the budget happens downstream, in the
translate-chunk operation (`chunk[:max_input_length]`), which truncates any
oversized chunk to exactly `maxLen` characters before submission. -/
theorem C7_amended_oversize_and_clip (tl : List Str) (mc : Nat) :
    (∀ c ∈ intelligent_chunk_text tl mc, c.length ≤ mc ∨ c ∈ tl) ∧
    (∀ c : Str, mc < c.length →
      clipChunk mc c = c.take mc ∧ (clipChunk mc c).length = mc) := by
  constructor
  · exact intelligent_chunk_le tl mc
  · intro c h
    constructor
    · show (if mc < c.length then c.take mc else c) = c.take mc
      rw [if_pos h]
    · show (if mc < c.length then c.take mc else c).length = mc
      rw [if_pos h, List.length_take]
      omega

/-- Witness for the amended C7 theorem on the oversized singleton segment. -/
theorem C7_amended_witness :
    ((strL "aaaa").length ≤ 3 ∨ strL "aaaa" ∈ [strL "aaaa"]) ∧
    (clipChunk 3 (strL "aaaa") = (strL "aaaa").take 3 ∧
      (clipChunk 3 (strL "aaaa")).length = 3) :=
  ⟨(C7_amended_oversize_and_clip [strL "aaaa"] 3).1 (strL "aaaa") (by decide),
   (C7_amended_oversize_and_clip [strL "aaaa"] 3).2 (strL "aaaa") (by decide)⟩

/-- Claim C8, counterexample: a run over one item with no translatable text
invokes the progress callback zero times (the item is marked completed and
skipped over without a callback, `translate_epub` lines 186-189), although
the claim requires a callback after every item. -/
theorem C8_no_callback_for_empty_item :
    (runModel 100 (fun _ => false) (fun _ _ => false) (fun _ _ => strL "X")
        [([] : List Str)] (fun _ => none)).2 = [] ∧
    ([([] : List Str)] : List (List Str)).length = 1 := by decide

/-- Claim C8, amended: the progress callback fires after each item that is
either skipped-as-completed or fully processed (items with no translatable
text, and items aborted by an alignment failure, fire no callback); every
reported value is `(i+1)/totalItems * 100` for that item's position `i`, and
the reported sequence is monotonically non-decreasing. -/
theorem C8_amended_progress_monotone (mc : Nat) (itemStop : Nat → Bool)
    (stopC : Nat → Nat → Bool) (oracle : Nat → Nat → Str)
    (items : List (List Str)) (recs : Nat → Option ItemRec) :
    List.Chain' (· ≤ ·) (runModel mc itemStop stopC oracle items recs).2 ∧
    ∀ q ∈ (runModel mc itemStop stopC oracle items recs).2,
      ∃ i, i < items.length ∧
        q = ((i : ℚ) + 1) / (items.length : ℚ) * 100 := by
  constructor
  · exact (runGo_cbs mc items.length itemStop stopC oracle recs items 0).2
  · intro q hq
    obtain ⟨k, _, hk2, hval⟩ :=
      (runGo_cbs mc items.length itemStop stopC oracle recs items 0).1 q hq
    exact ⟨k, by omega, hval⟩

/-- Witness for the amended C8 theorem at a one-item run whose single
callback value is 100%. -/
theorem C8_amended_witness :
    ∃ i, i < ([[strL "x"]] : List (List Str)).length ∧
      (((0 : Nat) : ℚ) + 1) / ((([[strL "x"]] : List (List Str)).length : ℚ))
          * 100 =
        ((i : ℚ) + 1) / ((([[strL "x"]] : List (List Str)).length : ℚ)) * 100 :=
  (C8_amended_progress_monotone 100 (fun _ => false) (fun _ _ => false)
      (fun _ _ => strL "Y") [[strL "x"]] (fun _ => none)).2 _
    (List.mem_singleton_self _)

/-- Claim C9: `reconstruct_whitespace` is total (it always returns a
string): on blank translated text it returns exactly the recorded leading
plus trailing whitespace, and whenever its body fails internally (modelled
by the bracket accesses that can raise on a malformed descriptor) it
degrades to leading + translated + trailing with no reconstruction — it
never propagates the failure to the caller. -/
theorem C9_reconstruct_total_safe (t : Str) (info : WSInfo) :
    (pyStrip t = [] →
      reconstruct_whitespace t info =
        info.leading_spaces.getD [] ++ info.trailing_spaces.getD []) ∧
    (reconstructBody t info = .error () →
      reconstruct_whitespace t info =
        info.leading_spaces.getD [] ++ t ++ info.trailing_spaces.getD []) := by
  constructor
  · intro h
    unfold reconstruct_whitespace reconstructBody
    rw [if_pos h]
  · intro h
    unfold reconstruct_whitespace
    rw [h]

/-- Witness for C9: the blank case, and a malformed break record that makes
the body raise. -/
theorem C9_witness :
    (reconstruct_whitespace (strL "  ")
        ⟨some (strL " "), some (strL "\n"), none, none, none⟩ =
      (some (strL " ")).getD [] ++ (some (strL "\n")).getD []) ∧
    (reconstruct_whitespace (strL "x")
        ⟨none, none, some true, some [⟨none, none⟩], none⟩ =
      (none : Option Str).getD [] ++ strL "x" ++ (none : Option Str).getD []) :=
  ⟨(C9_reconstruct_total_safe (strL "  ")
      ⟨some (strL " "), some (strL "\n"), none, none, none⟩).1 (by decide),
   (C9_reconstruct_total_safe (strL "x")
      ⟨none, none, some true, some [⟨none, none⟩], none⟩).2 rfl⟩

/-- Claim C10: with the stop flag set on entry the translate-chunk operation
returns the stopped outcome without any submission, and on a blank or
whitespace-only chunk it returns the empty string immediately — in both
cases the processing lock is never acquired and zero retry attempts (hence
no cooldown, no submission) are entered. -/
theorem C10_early_returns (chunk : Str) (att : Nat → AttemptOutcome)
    (maxLen : Nat) :
    (translateChunkModel true chunk att maxLen = ⟨stoppedMarker, false, 0⟩) ∧
    (pyStrip chunk = [] →
      translateChunkModel false chunk att maxLen = ⟨[], false, 0⟩) := by
  constructor
  · rfl
  · intro h
    unfold translateChunkModel
    rw [if_neg (by simp), if_pos h]

/-- Witness for C10 on a concrete non-empty chunk (stop set) and a concrete
whitespace-only chunk. -/
theorem C10_witness :
    (translateChunkModel true (strL "hi") (fun _ => AttemptOutcome.ok (strL "t"))
        4950 = ⟨stoppedMarker, false, 0⟩) ∧
    (translateChunkModel false (strL " \t ")
        (fun _ => AttemptOutcome.ok (strL "t")) 4950 = ⟨[], false, 0⟩) :=
  ⟨(C10_early_returns (strL "hi") (fun _ => AttemptOutcome.ok (strL "t")) 4950).1,
   (C10_early_returns (strL " \t ") (fun _ => AttemptOutcome.ok (strL "t"))
      4950).2 (by decide)⟩
